import Mathlib

/-!
Verification of the Chatly local conversation store (`script.js` / the
compaction-bearing variant of the client).

The JavaScript source is shallowly embedded: pure functions become Lean
functions, in-place mutations of the loaded snapshot become functions from
the old message list to the new one, `localStorage` is the `List Msg`
threaded through the operations, and wall-clock reads / random sources
(`Date.now()`, `crypto.getRandomValues`, `crypto.randomUUID`) become
explicit parameters.  Machine numbers are modelled as `Nat` (timestamps and
byte values never overflow or go negative in the source).
-/

namespace Chatly

/-- Message delivery status: the string field `status` of a message, one of
`'sent' | 'delivered' | 'seen'`. -/
inductive Status where
  | sent
  | delivered
  | seen
deriving DecidableEq, Repr

/-- Position of a status in the order Sent < Delivered < Seen. -/
def Status.rank : Status → Nat
  | .sent => 0
  | .delivered => 1
  | .seen => 2

/-- `CipherPayload`: the `{ iv, data }` object produced by `encryptMessage`
(`iv` is the 12-byte nonce, `data` the ciphertext bytes, both stored as
plain arrays of numbers). -/
structure Cipher where
  iv : List Nat
  data : List Nat
deriving DecidableEq, Repr

/-- A message record
`{ id, convId, from, to, cipher, createdAt, editedAt?, deleted?, status, seenAt? }`.
A missing `id` is modelled as the empty string (the source only ever tests
its truthiness), a missing `cipher` as `none`, a missing `deleted` flag as
`false`, and a missing `createdAt` as `0` (the source coalesces it with
`|| 0` everywhere it is read). -/
structure Msg where
  id : String
  convId : String
  «from» : String
  «to» : String
  cipher : Option Cipher
  createdAt : Nat
  editedAt : Option Nat
  deleted : Bool
  status : Status
  seenAt : Option Nat
deriving DecidableEq, Repr

/-- `PAGE_SIZE` constant. -/
def PAGE_SIZE : Nat := 20

/-- `getConversationId(peerId)`. -/
def getConversationId (peerId : String) : String := "conv-" ++ peerId

/- ------------- Cipher Service ------------- -/

/-- `DEMO_SECRET` constant. -/
def DEMO_SECRET : String := "chatly-demo-secret-v1"

/-- Modelled from the spec: `deriveKey` calls Web Crypto PBKDF2
(`crypto.subtle.importKey` / `deriveKey`), which is platform code not in the
repository.  The spec requires a deterministic derivation from the fixed
application secret concatenated with the conversation id (salt = the
conversation id), a pure function of its input; the derived key is modelled
by the key material string `DEMO_SECRET ++ "|" ++ conversationId` itself. -/
def deriveKey (conversationId : String) : String :=
  DEMO_SECRET ++ "|" ++ conversationId

/-- `new TextEncoder().encode(plaintext)`: the plaintext as a sequence of
code values (modelled at scalar-value granularity). -/
def encodeText (s : String) : List Nat := s.data.map Char.toNat

/-- `new TextDecoder().decode(bytes)`: inverse of `encodeText`. -/
def decodeText (l : List Nat) : String := String.mk (l.map fun n => Char.ofNat n)

/-- One step of the deterministic digest used by the modelled
authentication tag. -/
def digestStep (acc b : Nat) : Nat := (acc * 131 + b + 1) % 4294967296

/-- Digest of a byte list, continuing from `acc`. -/
def digestList (acc : Nat) (l : List Nat) : Nat := l.foldl digestStep acc

/-- Modelled from the spec: the 16-byte AES-GCM authentication tag (Web
Crypto `crypto.subtle.encrypt` with `AES-GCM`, platform code not in the
repository).  The spec requires authenticated encryption whose tag depends
on the key, the nonce and the message; it is modelled as a deterministic
16-byte digest of those three. -/
def gcmTag (key : String) (iv body : List Nat) : List Nat :=
  let h := digestList (digestList (digestList 5381 (encodeText key)) iv) body
  (List.range 16).map fun i => digestStep h i % 256

/-- Modelled from the spec: the AES-GCM encryption primitive.  Authenticated
encryption of `pt` under `key` and nonce `iv`; the ciphertext carries the
body followed by the 16-byte tag. -/
def encryptPrim (key : String) (iv pt : List Nat) : List Nat :=
  pt ++ gcmTag key iv pt

/-- Modelled from the spec: the AES-GCM decryption primitive.  Fails
(returns `none`) when the payload is too short to carry a tag or when the
tag does not authenticate under the given key and nonce. -/
def decryptPrim (key : String) (iv ct : List Nat) : Option (List Nat) :=
  if 16 ≤ ct.length then
    let body := ct.take (ct.length - 16)
    let tag := ct.drop (ct.length - 16)
    if tag = gcmTag key iv body then some body else none
  else none

/-- `encryptMessage(conversationId, plaintext)`.  The 12-byte random nonce
drawn from `crypto.getRandomValues` is passed in explicitly as `iv`. -/
def encryptMessage (conversationId plaintext : String) (iv : List Nat) : Cipher :=
  { iv := iv, data := encryptPrim (deriveKey conversationId) iv (encodeText plaintext) }

/-- `decryptMessage(conversationId, cipher)`: attempts authenticated
decryption; the `try … catch` returns the fixed sentinel on any failure. -/
def decryptMessage (conversationId : String) (cipher : Cipher) : String :=
  match decryptPrim (deriveKey conversationId) cipher.iv cipher.data with
  | some pt => decodeText pt
  | none => "[Unable to decrypt]"

/- ------------- Persisted Store: compaction ------------- -/

/-- JavaScript `Map.prototype.set` on an insertion-ordered map modelled as
an association list: an existing key keeps its position and gets the new
value, a new key is appended at the end. -/
def mapSet (k : String) (v : α) : List (String × α) → List (String × α)
  | [] => [(k, v)]
  | (k', v') :: rest => if k' = k then (k, v) :: rest else (k', v') :: mapSet k v rest

/-- JavaScript `Map.prototype.get`. -/
def mapGet (k : String) : List (String × α) → Option α
  | [] => none
  | (k', v) :: rest => if k' = k then some v else mapGet k rest

/-- JavaScript `Map.prototype.delete` (keys are unique in a `Map`, so
removing the first occurrence is removal). -/
def mapDelete (k : String) : List (String × α) → List (String × α)
  | [] => []
  | (k', v) :: rest => if k' = k then rest else (k', v) :: mapDelete k rest

/-- `(m.cipher && m.cipher.iv ? m.cipher.iv.join(",") : "")`. -/
def ivStr (m : Msg) : String :=
  match m.cipher with
  | some c => String.intercalate "," (c.iv.map toString)
  | none => ""

/-- `(m.cipher && m.cipher.data ? m.cipher.data.slice(0, 24).join(",") : "")`. -/
def dataStr (m : Msg) : String :=
  match m.cipher with
  | some c => String.intercalate "," ((c.data.take 24).map toString)
  | none => ""

/-- `Math.round((m.createdAt || 0) / 200)`: the 200 ms bucket.  For a
nonnegative numerator, JavaScript `Math.round(x / 200)` is
`⌊(x + 100) / 200⌋`. -/
def bucket (m : Msg) : Nat := (m.createdAt + 100) / 200

/-- `[m.convId, m.from, m.to, bucket, ivStr, dataStr].join("|")`: the
near-duplicate fingerprint. -/
def fp (m : Msg) : String :=
  m.convId ++ "|" ++ m.«from» ++ "|" ++ m.«to» ++ "|" ++ toString (bucket m)
    ++ "|" ++ ivStr m ++ "|" ++ dataStr m

/-- One step of the identity-merge loop
`for (const m of messages) { if (m && m.id) byId.set(m.id, m); }`;
a `null`/`undefined` array entry is `none`, a missing or empty `id` is
`""` (the only falsy string). -/
def idStep (acc : List (String × Msg)) (e : Option Msg) : List (String × Msg) :=
  match e with
  | some m => if m.id = "" then acc else mapSet m.id m acc
  | none => acc

/-- Stage 1 of the compaction: keep the last occurrence per id, in first-
insertion order (`Array.from(byId.values())`). -/
def idMerge (l : List (Option Msg)) : List Msg :=
  (l.foldl idStep []).map Prod.snd

/-- One step of the fingerprint-merge loop: keep, per fingerprint, the
entry with the greatest `createdAt`, later-encountered entries winning
ties (`if (!prev || m.createdAt >= prev.createdAt) byFp.set(fp, m)`). -/
def fpStep (acc : List (String × Msg)) (m : Msg) : List (String × Msg) :=
  match mapGet (fp m) acc with
  | none => mapSet (fp m) m acc
  | some prev => if prev.createdAt ≤ m.createdAt then mapSet (fp m) m acc else acc

/-- Stage 2 of the compaction: collapse near-identical messages by
fingerprint (`Array.from(byFp.values())`). -/
def fpMerge (l : List Msg) : List Msg :=
  (l.foldl fpStep []).map Prod.snd

/-- The sort comparator `(a, b) => (a.createdAt || 0) - (b.createdAt || 0)`:
ascending by `createdAt`. -/
def msgLE (a b : Msg) : Prop := a.createdAt ≤ b.createdAt

instance : DecidableRel msgLE := fun a b => inferInstanceAs (Decidable (a.createdAt ≤ b.createdAt))

instance : IsTotal Msg msgLE := ⟨fun a b => Nat.le_total a.createdAt b.createdAt⟩

instance : IsTrans Msg msgLE := ⟨fun _ _ _ => Nat.le_trans⟩

/-- `Array.prototype.sort` with the `createdAt` comparator.  ECMAScript
guarantees a stable sort, and a stable sort under a total preorder
comparator is unique, so it is modelled by the (stable) insertion sort. -/
def sortByCreated (l : List Msg) : List Msg := l.insertionSort msgLE

/-- The inline compaction performed identically inside `saveData` and
`loadData`: identity merge by `id`, then fingerprint merge, then a stable
sort by `createdAt` ascending.  The input is the raw `data.messages` array,
whose entries may be `null` or lack an `id`. -/
def compact (l : List (Option Msg)) : List Msg :=
  sortByCreated (fpMerge (idMerge l))

/-- `compact` on an array of well-formed (non-null) entries — the shape
every snapshot written by the application has. -/
def compactL (l : List Msg) : List Msg := compact (l.map some)

/-- The invariant every snapshot written by `saveData`/`loadData` enjoys:
all ids truthy and distinct, all fingerprints distinct, messages sorted by
`createdAt` ascending. -/
def CleanStore (l : List Msg) : Prop :=
  (∀ m ∈ l, m.id ≠ "") ∧ (l.map Msg.id).Nodup ∧ (l.map fp).Nodup ∧ l.Sorted msgLE

/- ------------- Lifecycle Engine ------------- -/

/-- The mutation performed by `updateStatus` on the found message:
`m.status = status; if (status === "seen") m.seenAt = Date.now();`. -/
def applyStatus (st : Status) (now : Nat) (m : Msg) : Msg :=
  { m with status := st, seenAt := if st = Status.seen then some now else m.seenAt }

/-- In-place mutation of the object returned by `Array.prototype.find`:
replace the first element satisfying `p`. -/
def updateFirst (p : Msg → Bool) (f : Msg → Msg) : List Msg → List Msg
  | [] => []
  | x :: xs => if p x then f x :: xs else x :: updateFirst p f xs

/-- `updateStatus(messageId, status)`: `loadData` (which compacts and
writes the compacted snapshot back), `find` by id, mutate in place, and
`saveData` (which compacts again) only when the message was found.
`stored` is the persisted message array; the result is the persisted array
after the call.  `now` is the `Date.now()` read for `seenAt`. -/
def updateStatus (stored : List Msg) (messageId : String) (st : Status) (now : Nat) :
    List Msg :=
  let data := compactL stored
  if data.any (fun x => decide (x.id = messageId)) then
    compactL (updateFirst (fun x => decide (x.id = messageId)) (applyStatus st now) data)
  else data

/-- The `forEach` body of `markAllSeenIfAtBottom`: every message of the
conversation that is not mine, not tombstoned and not yet seen becomes
`seen` with `seenAt = now`. -/
def markAllSeen (convId : String) (now : Nat) (msgs : List Msg) : List Msg :=
  msgs.map fun m =>
    if m.convId = convId ∧ m.«from» ≠ "me" ∧ m.deleted = false ∧ m.status ≠ Status.seen
    then { m with status := Status.seen, seenAt := some now }
    else m

/-- `markAllSeenIfAtBottom()`: returns early (leaving the persisted array
untouched) when no chat is open or the viewport is not near the bottom;
otherwise loads (compacting and writing back), promotes the conversation's
unseen peer messages and saves only when something changed. -/
def markAllSeenIfAtBottom (peerId : Option String) (nearBottom : Bool)
    (stored : List Msg) (now : Nat) : List Msg :=
  match peerId, nearBottom with
  | none, _ => stored
  | some _, false => stored
  | some pid, true =>
    let data := compactL stored
    let convId := getConversationId pid
    if data.any (fun m =>
        decide (m.convId = convId ∧ m.«from» ≠ "me" ∧ m.deleted = false ∧
          m.status ≠ Status.seen)) then
      compactL (markAllSeen convId now data)
    else data

/- ------------- Send path ------------- -/

/-- `state.lastSend` / `state.lastBot`: `{ convId, text, ts }`. -/
structure LastSend where
  convId : String
  text : String
  ts : Nat
deriving DecidableEq, Repr

/-- The slice of the global `state` object and of `localStorage` that
`sendMessage` reads and writes: the persisted messages, the
duplicate-submit memo, the re-entrancy flag and the open conversation. -/
structure AppState where
  msgs : List Msg
  lastSend : Option LastSend
  sending : Bool
  peerId : Option String
deriving DecidableEq, Repr

/-- The message object `sendMessage` pushes. -/
def mkSendMsg (pid text : String) (now : Nat) (newId : String) (iv : List Nat) : Msg :=
  { id := newId
    convId := getConversationId pid
    «from» := "me"
    «to» := pid
    cipher := some (encryptMessage (getConversationId pid) text iv)
    createdAt := now
    editedAt := none
    deleted := false
    status := Status.sent
    seenAt := none }

/-- `sendMessage(text)`.  Early-returns (before touching storage) when no
chat is open, a send is in flight, or the duplicate-submit guard fires
(same conversation, same text, within 600 ms of the previous accepted
send).  Otherwise records the send in `state.lastSend`, loads (compacting
and writing back), appends the freshly encrypted message and saves
(compacting again).  `now` is `Date.now()`, `newId` the
`crypto.randomUUID()` value, `iv` the random nonce; the `sending` flag is
set and cleared inside the call, so its net effect is `false → false`. -/
def sendMessage (s : AppState) (text : String) (now : Nat) (newId : String)
    (iv : List Nat) : AppState :=
  match s.peerId with
  | none => s
  | some pid =>
    if s.sending then s
    else
      let convId := getConversationId pid
      let dup := match s.lastSend with
        | some ls => decide (ls.convId = convId ∧ ls.text = text ∧ now - ls.ts < 600)
        | none => false
      if dup then s
      else
        { s with
            msgs := compactL (compactL s.msgs ++ [mkSendMsg pid text now newId iv])
            lastSend := some ⟨convId, text, now⟩ }

/- ------------- Pagination ------------- -/

/-- `getVisibleMessages()`: `{slice, total}` over the loaded (hence
compacted) store, keeping only the open conversation's non-tombstoned
messages; the slice is the window `[max(0, total - PAGE_SIZE*(pageIndex+1)),
total)`. -/
def getVisibleMessages (peerId : Option String) (pageIndex : Nat)
    (stored : List Msg) : List Msg × Nat :=
  match peerId with
  | none => ([], 0)
  | some pid =>
    let data := compactL stored
    let convId := getConversationId pid
    let all := data.filter fun m => decide (m.convId = convId ∧ m.deleted = false)
    let total := all.length
    (all.drop (total - PAGE_SIZE * (pageIndex + 1)), total)

/- ------------- Delete / Undo ------------- -/

/-- `onDeleteMessage`: load (compacting), find by id; if found, set
`deleted = true`, save, and snapshot the (already tombstoned) object for
undo.  Returns the persisted array and the snapshot (`none` when the id
was not found). -/
def onDeleteMessage (stored : List Msg) (msgId : String) : List Msg × Option Msg :=
  let data := compactL stored
  match data.find? (fun x => decide (x.id = msgId)) with
  | none => (data, none)
  | some m =>
    (compactL (updateFirst (fun x => decide (x.id = msgId)) (fun x => { x with deleted := true }) data),
      some { m with deleted := true })

/-- The undo callback passed to `toastUndo`: load (compacting), find by
id, and — whenever the message still exists, tombstoned or not —
`Object.assign(mm, snapshot, { deleted: false })`, then save. -/
def undoDelete (stored : List Msg) (msgId : String) (snapshot : Msg) : List Msg :=
  let d2 := compactL stored
  match d2.find? (fun x => decide (x.id = msgId)) with
  | none => d2
  | some _ =>
    compactL (updateFirst (fun x => decide (x.id = msgId))
      (fun _ => { snapshot with deleted := false }) d2)

/- ------------- Activity Scheduler: auto-reply timers ------------- -/

/-- The scheduler state: the `botTimers` map (`convId -> timeoutId`), the
set of live (armed, not yet fired, not cancelled) timeout handles paired
with the conversation their callback closes over, the next timeout id the
host will hand out (ids are positive and never reused), and the
duplicate-reply memo `state.lastBot`. -/
structure SchedState where
  botTimers : List (String × Nat)
  live : List (Nat × String)
  nextTid : Nat
  lastBot : Option LastSend
deriving DecidableEq, Repr

/-- The 600 ms duplicate-content suppression at the top of
`simulateBotResponse`. -/
def botSuppressed (s : SchedState) (convId userText : String) (now : Nat) : Bool :=
  match s.lastBot with
  | some lb => decide (lb.convId = convId ∧ lb.text = userText ∧ now - lb.ts < 600)
  | none => false

/-- `simulateBotResponse({userText, convId, peerId})` restricted to its
timer bookkeeping: if not suppressed, record `lastBot`, clear any
previously scheduled reply for this conversation
(`clearTimeout(prev); botTimers.delete(convId)`), arm a fresh timeout and
register it (`botTimers.set(convId, tid)`). -/
def simulateBotResponse (s : SchedState) (convId userText : String) (now : Nat) :
    SchedState :=
  if botSuppressed s convId userText now then s
  else
    let cleared := match mapGet convId s.botTimers with
      | some prev =>
        { s with
            live := s.live.filter fun p => decide (p.1 ≠ prev)
            botTimers := mapDelete convId s.botTimers }
      | none => s
    { cleared with
        botTimers := mapSet convId s.nextTid cleared.botTimers
        live := cleared.live ++ [(s.nextTid, convId)]
        nextTid := s.nextTid + 1
        lastBot := some ⟨convId, userText, now⟩ }

/-- The firing of a scheduled reply `tid` for conversation `convId`: only a
live (armed, uncancelled) handle can fire; its callback first runs
`botTimers.delete(convId)`.  (The message it appends is not part of the
timer bookkeeping.) -/
def fireBotTimer (s : SchedState) (tid : Nat) (convId : String) : SchedState :=
  if (tid, convId) ∈ s.live then
    { s with
        live := s.live.filter fun p => decide (p ≠ (tid, convId))
        botTimers := mapDelete convId s.botTimers }
  else s

/-- The initial scheduler state: empty `botTimers` map, no live timers. -/
def initSched : SchedState := ⟨[], [], 1, none⟩

/-- The scheduler states reachable from startup by any interleaving of
schedule requests and timer firings. -/
inductive BotReachable : SchedState → Prop
  | init : BotReachable initSched
  | schedule (s : SchedState) (convId userText : String) (now : Nat) :
      BotReachable s → BotReachable (simulateBotResponse s convId userText now)
  | fire (s : SchedState) (tid : Nat) (convId : String) :
      BotReachable s → BotReachable (fireBotTimer s tid convId)

/-- The inductive invariant of the scheduler: `botTimers` keys are unique
(it is a map); every live timer is the one registered for its conversation;
every registered timer is live; live timer ids are below the allocator and
pairwise distinct. -/
def SchedInv (s : SchedState) : Prop :=
  (s.botTimers.map Prod.fst).Nodup ∧
  (∀ p ∈ s.live, mapGet p.2 s.botTimers = some p.1) ∧
  (∀ q ∈ s.botTimers, (q.2, q.1) ∈ s.live) ∧
  (∀ p ∈ s.live, p.1 < s.nextTid) ∧
  (s.live.map Prod.fst).Nodup

/- ------------- Concrete stores for witnesses and counterexamples ------------- -/

/-- A message 400 ms after the epoch of its 200 ms grid. -/
def c2floorA : Msg := ⟨"x", "c", "a", "b", some ⟨[1], [2]⟩, 400, none, false, .sent, none⟩

/-- A near-identical message 150 ms later: same `⌊createdAt/200⌋` floor
bucket as `c2floorA` (2 = ⌊550/200⌋), but a different `Math.round` bucket
(`round(400/200) = 2`, `round(550/200) = 3`). -/
def c2floorB : Msg := ⟨"y", "c", "a", "b", some ⟨[1], [2]⟩, 550, none, false, .sent, none⟩

/-- A message at 150 ms: `Math.round` bucket 1. -/
def c2roundA : Msg := ⟨"x", "c", "a", "b", some ⟨[1], [2]⟩, 150, none, false, .sent, none⟩

/-- A near-identical message at 250 ms: same `Math.round` bucket 1. -/
def c2roundB : Msg := ⟨"y", "c", "a", "b", some ⟨[1], [2]⟩, 250, none, false, .sent, none⟩

/-- A peer-authored message already marked seen. -/
def c3seen : Msg :=
  ⟨"m1", "conv-u-1", "u-1", "me", some ⟨[3], [4]⟩, 100, none, false, .seen, some 90⟩

/-- A peer-authored message still in state sent. -/
def c3sent : Msg :=
  ⟨"m2", "conv-u-1", "u-1", "me", some ⟨[5], [6]⟩, 100, none, false, .sent, none⟩

/-- A visible (non-tombstoned) message as stored before a delete. -/
def c8orig : Msg :=
  ⟨"m1", "conv-u-1", "me", "u-1", some ⟨[11], [12]⟩, 100, none, false, .sent, none⟩

/-- The undo snapshot taken by `onDeleteMessage` after tombstoning
`c8orig` (`const snapshot = { ...m }` runs after `m.deleted = true`). -/
def c8snapshot : Msg := { c8orig with deleted := true }

/-- The same message later: restored by a first undo and then edited
(fresh cipher, `editedAt` stamped) — in particular no longer tombstoned. -/
def c8edited : Msg := { c8orig with cipher := some ⟨[21], [22]⟩, editedAt := some 150 }

/-- A well-formed message used in the C10 witness. -/
def c10good : Msg :=
  ⟨"ok", "conv-u-1", "me", "u-1", some ⟨[7], [8]⟩, 300, none, false, .sent, none⟩

/-- A message whose `id` field is falsy. -/
def c10bad : Msg :=
  ⟨"", "conv-u-1", "me", "u-1", some ⟨[9], [10]⟩, 200, none, false, .sent, none⟩

-- DEFS_END

/- Round-trip helper lemmas for the cipher service. -/

theorem gcmTag_length (key : String) (iv body : List Nat) :
    (gcmTag key iv body).length = 16 := by
  simp [gcmTag]

theorem decodeText_encodeText (s : String) : decodeText (encodeText s) = s := by
  cases s with
  | mk l =>
    simp [decodeText, encodeText, List.map_map, Function.comp_def]

theorem decryptPrim_encryptPrim (key : String) (iv pt : List Nat) :
    decryptPrim key iv (encryptPrim key iv pt) = some pt := by
  have hlen : (encryptPrim key iv pt).length = pt.length + 16 := by
    simp [encryptPrim, gcmTag_length]
  have htake : (encryptPrim key iv pt).take (pt.length) = pt := by
    simp only [encryptPrim]
    exact List.take_left pt (gcmTag key iv pt)
  have hdrop : (encryptPrim key iv pt).drop (pt.length) = gcmTag key iv pt := by
    simp only [encryptPrim]
    exact List.drop_left pt (gcmTag key iv pt)
  simp only [decryptPrim, hlen, Nat.add_sub_cancel]
  rw [if_pos (by omega), htake, hdrop, if_pos rfl]

theorem decrypt_encrypt (c t : String) (iv : List Nat) :
    decryptMessage c (encryptMessage c t iv) = t := by
  simp [decryptMessage, encryptMessage, decryptPrim_encryptPrim, decodeText_encodeText]

/-- C4: Encryption round-trip: for every conversation id `c`, every string
`t` and every sampled nonce `iv`, decrypting the payload produced by
encrypting `t` under `c` returns `t`. -/
theorem encryption_round_trip (c t : String) (iv : List Nat) :
    decryptMessage c (encryptMessage c t iv) = t :=
  decrypt_encrypt c t iv

/-- C5: Decryption failure is silent and total: `decryptMessage` always
returns a string (it is a total function of its inputs), and whenever
authenticated decryption of the payload fails it returns exactly the fixed
sentinel `"[Unable to decrypt]"`, with no other output. -/
theorem decryption_failure_sentinel (c : String) (payload : Cipher)
    (hfail : decryptPrim (deriveKey c) payload.iv payload.data = none) :
    decryptMessage c payload = "[Unable to decrypt]" := by
  simp [decryptMessage, hfail]

/-- Witness for C5 at a concrete undecryptable payload (empty ciphertext,
too short to carry an authentication tag). -/
theorem decryption_failure_sentinel_witness :
    decryptPrim (deriveKey "conv-u-1") (Cipher.mk [] []).iv (Cipher.mk [] []).data = none ∧
      decryptMessage "conv-u-1" (Cipher.mk [] []) = "[Unable to decrypt]" :=
  ⟨by decide, decryption_failure_sentinel "conv-u-1" (Cipher.mk [] []) (by decide)⟩

/- Lemmas about the insertion-ordered map operations. -/

theorem mem_mapSet {α : Type} {p : String × α} {k : String} {v : α} {l : List (String × α)}
    (h : p ∈ mapSet k v l) : p = (k, v) ∨ p ∈ l := by
  induction l with
  | nil => simpa [mapSet] using h
  | cons hd tl ih =>
    obtain ⟨k', v'⟩ := hd
    by_cases hk : k' = k
    · simp only [mapSet, if_pos hk, List.mem_cons] at h
      rcases h with h | h
      · exact Or.inl h
      · exact Or.inr (List.mem_cons_of_mem _ h)
    · simp only [mapSet, if_neg hk, List.mem_cons] at h
      rcases h with h | h
      · exact Or.inr (h ▸ List.mem_cons_self _ _)
      · rcases ih h with h' | h'
        · exact Or.inl h'
        · exact Or.inr (List.mem_cons_of_mem _ h')

theorem mapSet_of_not_mem {α : Type} {k : String} {v : α} {l : List (String × α)}
    (h : k ∉ l.map Prod.fst) : mapSet k v l = l ++ [(k, v)] := by
  induction l with
  | nil => rfl
  | cons hd tl ih =>
    obtain ⟨k', v'⟩ := hd
    simp only [List.map_cons, List.mem_cons] at h
    push_neg at h
    have hk : k' ≠ k := Ne.symm h.1
    simp only [mapSet, if_neg hk, List.cons_append, List.cons.injEq, true_and]
    exact ih h.2

theorem keys_mapSet_subset {α : Type} {k : String} {v : α} {l : List (String × α)} :
    ∀ x ∈ (mapSet k v l).map Prod.fst, x ∈ l.map Prod.fst ∨ x = k := by
  intro x hx
  simp only [List.mem_map] at hx
  obtain ⟨p, hp, hpx⟩ := hx
  rcases mem_mapSet hp with h | h
  · right; rw [← hpx, h]
  · left; exact List.mem_map.mpr ⟨p, h, hpx⟩

theorem nodup_keys_mapSet {α : Type} {k : String} {v : α} {l : List (String × α)}
    (h : (l.map Prod.fst).Nodup) : ((mapSet k v l).map Prod.fst).Nodup := by
  induction l with
  | nil => simp [mapSet]
  | cons hd tl ih =>
    obtain ⟨k', v'⟩ := hd
    simp only [List.map_cons, List.nodup_cons] at h
    by_cases hk : k' = k
    · subst hk
      have hm : mapSet k' v ((k', v') :: tl) = (k', v) :: tl := by simp [mapSet]
      rw [hm]
      simp only [List.map_cons, List.nodup_cons]
      exact h
    · simp only [mapSet, if_neg hk, List.map_cons, List.nodup_cons]
      refine ⟨fun hmem => ?_, ih h.2⟩
      rcases keys_mapSet_subset k' hmem with h' | h'
      · exact h.1 h'
      · exact hk h'

theorem mapGet_eq_none_of_not_mem {α : Type} {k : String} {l : List (String × α)}
    (h : k ∉ l.map Prod.fst) : mapGet k l = none := by
  induction l with
  | nil => rfl
  | cons hd tl ih =>
    obtain ⟨k', v'⟩ := hd
    simp only [List.map_cons, List.mem_cons] at h
    push_neg at h
    have hk : k' ≠ k := Ne.symm h.1
    simp only [mapGet, if_neg hk]
    exact ih h.2

/- Lemmas about the identity-merge fold. -/

theorem mem_foldl_idStep :
    ∀ (l : List (Option Msg)) (acc : List (String × Msg)) (p : String × Msg),
      p ∈ l.foldl idStep acc →
      p ∈ acc ∨ (some p.2 ∈ l ∧ p.1 = p.2.id ∧ p.2.id ≠ "") := by
  intro l
  induction l with
  | nil => intro acc p h; exact Or.inl h
  | cons e tl ih =>
    intro acc p h
    rw [List.foldl_cons] at h
    rcases ih (idStep acc e) p h with h' | h'
    · match e with
      | none => exact Or.inl h'
      | some m =>
        by_cases hid : m.id = ""
        · simp only [idStep, if_pos hid] at h'
          exact Or.inl h'
        · simp only [idStep, if_neg hid] at h'
          rcases mem_mapSet h' with h'' | h''
          · subst h''
            exact Or.inr ⟨List.mem_cons_self _ _, rfl, hid⟩
          · exact Or.inl h''
    · exact Or.inr ⟨List.mem_cons_of_mem _ h'.1, h'.2⟩

theorem nodup_keys_foldl_idStep :
    ∀ (l : List (Option Msg)) (acc : List (String × Msg)),
      (acc.map Prod.fst).Nodup → ((l.foldl idStep acc).map Prod.fst).Nodup := by
  intro l
  induction l with
  | nil => intro acc h; exact h
  | cons e tl ih =>
    intro acc h
    rw [List.foldl_cons]
    apply ih
    match e with
    | none => exact h
    | some m =>
      by_cases hid : m.id = ""
      · simpa only [idStep, if_pos hid] using h
      · simp only [idStep, if_neg hid]
        exact nodup_keys_mapSet h

theorem foldl_idStep_of_nodup :
    ∀ (l : List Msg) (acc : List (String × Msg)),
      (∀ m ∈ l, m.id ≠ "") →
      ((acc.map Prod.fst) ++ l.map Msg.id).Nodup →
      (l.map some).foldl idStep acc = acc ++ l.map (fun m => (m.id, m)) := by
  intro l
  induction l with
  | nil => intro acc _ _; simp
  | cons m tl ih =>
    intro acc hne hnd
    have hmid : m.id ∉ acc.map Prod.fst := by
      rw [List.nodup_append] at hnd
      intro hmem
      exact hnd.2.2 hmem (by simp)
    have hstep : idStep acc (some m) = acc ++ [(m.id, m)] := by
      simp only [idStep, if_neg (hne m (List.mem_cons_self _ _))]
      exact mapSet_of_not_mem hmid
    rw [List.map_cons, List.foldl_cons, hstep]
    rw [ih (acc ++ [(m.id, m)]) (fun x hx => hne x (List.mem_cons_of_mem _ hx))
      (by simpa [List.append_assoc] using hnd)]
    simp

theorem idMerge_keyed :
    ∀ p ∈ (fun (l : List (Option Msg)) => l.foldl idStep []) l, (p : String × Msg).1 = p.2.id := by
  intro p hp
  rcases mem_foldl_idStep l [] p hp with h | h
  · cases h
  · exact h.2.1

theorem idMerge_ids_nodup (l : List (Option Msg)) : ((idMerge l).map Msg.id).Nodup := by
  have hk : ((l.foldl idStep []).map Prod.fst).Nodup :=
    nodup_keys_foldl_idStep l [] (by simp)
  have he : (l.foldl idStep []).map (fun p => p.2.id) = (l.foldl idStep []).map Prod.fst := by
    apply List.map_congr_left
    intro p hp
    exact (idMerge_keyed p hp).symm
  simpa [idMerge, List.map_map, Function.comp_def, he] using hk

theorem idMerge_mem {l : List (Option Msg)} {m : Msg} (h : m ∈ idMerge l) :
    some m ∈ l ∧ m.id ≠ "" := by
  simp only [idMerge, List.mem_map] at h
  obtain ⟨p, hp, hpm⟩ := h
  rcases mem_foldl_idStep l [] p hp with h' | h'
  · cases h'
  · exact ⟨hpm ▸ h'.1, hpm ▸ h'.2.2⟩

theorem idMerge_of_nodup {l : List Msg} (hne : ∀ m ∈ l, m.id ≠ "")
    (hnd : (l.map Msg.id).Nodup) : idMerge (l.map some) = l := by
  rw [idMerge, foldl_idStep_of_nodup l [] hne (by simpa using hnd)]
  simp [List.map_map, Function.comp_def]

/- Lemmas about the fingerprint-merge fold. -/

theorem fpStep_of_none {acc : List (String × Msg)} {m : Msg}
    (h : mapGet (fp m) acc = none) : fpStep acc m = mapSet (fp m) m acc := by
  unfold fpStep
  rw [h]

theorem fpStep_of_some {acc : List (String × Msg)} {m prev : Msg}
    (h : mapGet (fp m) acc = some prev) :
    fpStep acc m = if prev.createdAt ≤ m.createdAt then mapSet (fp m) m acc else acc := by
  unfold fpStep
  rw [h]

/-- Whatever the branch, `fpStep acc m` is either `mapSet (fp m) m acc` or
`acc` itself. -/
theorem fpStep_cases (acc : List (String × Msg)) (m : Msg) :
    fpStep acc m = mapSet (fp m) m acc ∨ fpStep acc m = acc := by
  rcases hget : mapGet (fp m) acc with _ | prev
  · exact Or.inl (fpStep_of_none hget)
  · by_cases hle : prev.createdAt ≤ m.createdAt
    · exact Or.inl (by rw [fpStep_of_some hget, if_pos hle])
    · exact Or.inr (by rw [fpStep_of_some hget, if_neg hle])

theorem mem_foldl_fpStep :
    ∀ (l : List Msg) (acc : List (String × Msg)) (p : String × Msg),
      p ∈ l.foldl fpStep acc →
      p ∈ acc ∨ (p.2 ∈ l ∧ p.1 = fp p.2) := by
  intro l
  induction l with
  | nil => intro acc p h; exact Or.inl h
  | cons m tl ih =>
    intro acc p h
    rw [List.foldl_cons] at h
    have hcase : p ∈ fpStep acc m ∨ (p.2 ∈ tl ∧ p.1 = fp p.2) := ih (fpStep acc m) p h
    rcases hcase with h' | h'
    · have hmem : p = (fp m, m) ∨ p ∈ acc := by
        rcases fpStep_cases acc m with he | he
        · rw [he] at h'
          exact mem_mapSet h'
        · rw [he] at h'
          exact Or.inr h'
      rcases hmem with h'' | h''
      · subst h''
        exact Or.inr ⟨List.mem_cons_self _ _, rfl⟩
      · exact Or.inl h''
    · exact Or.inr ⟨List.mem_cons_of_mem _ h'.1, h'.2⟩

theorem nodup_keys_foldl_fpStep :
    ∀ (l : List Msg) (acc : List (String × Msg)),
      (acc.map Prod.fst).Nodup → ((l.foldl fpStep acc).map Prod.fst).Nodup := by
  intro l
  induction l with
  | nil => intro acc h; exact h
  | cons m tl ih =>
    intro acc h
    rw [List.foldl_cons]
    apply ih
    rcases fpStep_cases acc m with he | he
    · rw [he]; exact nodup_keys_mapSet h
    · rw [he]; exact h

theorem foldl_fpStep_of_nodup :
    ∀ (l : List Msg) (acc : List (String × Msg)),
      ((acc.map Prod.fst) ++ l.map fp).Nodup →
      l.foldl fpStep acc = acc ++ l.map (fun m => (fp m, m)) := by
  intro l
  induction l with
  | nil => intro acc _; simp
  | cons m tl ih =>
    intro acc hnd
    have hmfp : fp m ∉ acc.map Prod.fst := by
      rw [List.nodup_append] at hnd
      intro hmem
      exact hnd.2.2 hmem (by simp)
    have hstep : fpStep acc m = acc ++ [(fp m, m)] := by
      rw [fpStep, mapGet_eq_none_of_not_mem hmfp]
      exact mapSet_of_not_mem hmfp
    rw [List.foldl_cons, hstep]
    rw [ih (acc ++ [(fp m, m)]) (by simpa [List.append_assoc] using hnd)]
    simp

theorem fpMerge_keyed {l : List Msg} :
    ∀ p ∈ l.foldl fpStep [], (p : String × Msg).1 = fp p.2 := by
  intro p hp
  rcases mem_foldl_fpStep l [] p hp with h | h
  · cases h
  · exact h.2

theorem fpMerge_fps_nodup (l : List Msg) : ((fpMerge l).map fp).Nodup := by
  have hk : ((l.foldl fpStep []).map Prod.fst).Nodup :=
    nodup_keys_foldl_fpStep l [] (by simp)
  have he : (l.foldl fpStep []).map (fun p => fp p.2) = (l.foldl fpStep []).map Prod.fst := by
    apply List.map_congr_left
    intro p hp
    exact (fpMerge_keyed p hp).symm
  simpa [fpMerge, List.map_map, Function.comp_def, he] using hk

theorem fpMerge_mem {l : List Msg} {m : Msg} (h : m ∈ fpMerge l) : m ∈ l := by
  simp only [fpMerge, List.mem_map] at h
  obtain ⟨p, hp, hpm⟩ := h
  rcases mem_foldl_fpStep l [] p hp with h' | h'
  · cases h'
  · exact hpm ▸ h'.1

theorem fpMerge_of_nodup {l : List Msg} (hnd : (l.map fp).Nodup) : fpMerge l = l := by
  rw [fpMerge, foldl_fpStep_of_nodup l [] (by simpa using hnd)]
  simp [List.map_map, Function.comp_def]

/-- Replacing (or appending) a value through `mapSet` with a message whose
id is fresh relative to both the accumulated values and `L` preserves the
no-duplicate-ids invariant. -/
theorem nodup_ids_mapSet :
    ∀ (acc : List (String × Msg)) (k : String) (m : Msg) (L : List String),
      ((acc.map fun p => p.2.id) ++ m.id :: L).Nodup →
      (((mapSet k m acc).map fun p => p.2.id) ++ L).Nodup := by
  intro acc
  induction acc with
  | nil =>
    intro k m L h
    simpa [mapSet] using h
  | cons hd tl ih =>
    obtain ⟨k', v'⟩ := hd
    intro k m L h
    simp only [List.map_cons, List.cons_append, List.nodup_cons] at h
    by_cases hk : k' = k
    · simp only [mapSet, if_pos hk, List.map_cons, List.cons_append, List.nodup_cons]
      constructor
      · -- m.id ∉ (tl values' ids) ++ L
        have := h.2
        rw [List.nodup_append] at this
        intro hmem
        rw [List.mem_append] at hmem
        rcases hmem with hmem | hmem
        · exact (this.2.2 · (List.mem_cons_self _ _)) hmem
        · exact (List.nodup_cons.mp this.2.1).1 hmem
      · -- ids of tl ++ L nodup
        have := h.2
        rw [List.nodup_append] at this
        rw [List.nodup_append]
        exact ⟨this.1, (List.nodup_cons.mp this.2.1).2,
          fun a ha ha' => this.2.2 ha (List.mem_cons_of_mem _ ha')⟩
    · simp only [mapSet, if_neg hk, List.map_cons, List.cons_append, List.nodup_cons]
      refine ⟨?_, ih k m L h.2⟩
      intro hmem
      rw [List.mem_append] at hmem
      rcases hmem with hmem | hmem
      · rw [List.mem_map] at hmem
        obtain ⟨p, hp, hpe⟩ := hmem
        rcases mem_mapSet hp with h' | h'
        · -- p = (k, m): v'.id = m.id, contradicting h.1
          apply h.1
          rw [h'] at hpe
          rw [← hpe]
          simp
        · exact h.1 (by
            rw [List.mem_append]
            exact Or.inl (List.mem_map.mpr ⟨p, h', hpe⟩))
      · exact h.1 (by
          rw [List.mem_append]
          exact Or.inr (List.mem_cons_of_mem _ hmem))

theorem nodup_ids_foldl_fpStep :
    ∀ (l : List Msg) (acc : List (String × Msg)),
      ((acc.map fun p => p.2.id) ++ l.map Msg.id).Nodup →
      ((l.foldl fpStep acc).map fun p => p.2.id).Nodup := by
  intro l
  induction l with
  | nil =>
    intro acc h
    simpa using h
  | cons m tl ih =>
    intro acc h
    rw [List.map_cons] at h
    rw [List.foldl_cons]
    apply ih
    rcases fpStep_cases acc m with he | he
    · rw [he]
      exact nodup_ids_mapSet acc (fp m) m (tl.map Msg.id) h
    · rw [he]
      -- dropping the head id keeps the list Nodup
      have hsub : ((acc.map fun p => p.2.id) ++ tl.map Msg.id).Sublist
          ((acc.map fun p => p.2.id) ++ m.id :: tl.map Msg.id) :=
        List.Sublist.append_left (List.sublist_cons_self _ _) _
      exact (h.sublist hsub)

theorem fpMerge_ids_nodup {l : List Msg} (h : (l.map Msg.id).Nodup) :
    ((fpMerge l).map Msg.id).Nodup := by
  have := nodup_ids_foldl_fpStep l [] (by simpa using h)
  simpa [fpMerge, List.map_map, Function.comp_def] using this

/- Lemmas about `sortByCreated` and `compact`. -/

theorem sortByCreated_perm (l : List Msg) : List.Perm (sortByCreated l) l :=
  List.perm_insertionSort msgLE l

theorem sortByCreated_sorted (l : List Msg) : (sortByCreated l).Sorted msgLE :=
  List.sorted_insertionSort msgLE l

theorem sortByCreated_of_sorted {l : List Msg} (h : l.Sorted msgLE) :
    sortByCreated l = l :=
  h.insertionSort_eq

theorem mem_compact {l : List (Option Msg)} {m : Msg} (h : m ∈ compact l) :
    some m ∈ l ∧ m.id ≠ "" := by
  have h1 : m ∈ fpMerge (idMerge l) := (sortByCreated_perm _).mem_iff.mp h
  exact idMerge_mem (fpMerge_mem h1)

theorem compact_clean (l : List (Option Msg)) : CleanStore (compact l) := by
  refine ⟨fun m hm => (mem_compact hm).2, ?_, ?_, sortByCreated_sorted _⟩
  · have hperm : List.Perm ((compact l).map Msg.id) ((fpMerge (idMerge l)).map Msg.id) :=
      (sortByCreated_perm _).map Msg.id
    exact hperm.nodup_iff.mpr (fpMerge_ids_nodup (idMerge_ids_nodup l))
  · have hperm : List.Perm ((compact l).map fp) ((fpMerge (idMerge l)).map fp) :=
      (sortByCreated_perm _).map fp
    exact hperm.nodup_iff.mpr (fpMerge_fps_nodup (idMerge l))

theorem compact_of_clean {l : List Msg} (h : CleanStore l) : compactL l = l := by
  obtain ⟨h1, h2, h3, h4⟩ := h
  rw [compactL, compact, idMerge_of_nodup h1 h2, fpMerge_of_nodup h3]
  exact sortByCreated_of_sorted h4

theorem compactL_clean (l : List Msg) : CleanStore (compactL l) :=
  compact_clean (l.map some)

theorem compactL_idem (l : List Msg) : compactL (compactL l) = compactL l :=
  compact_of_clean (compactL_clean l)

/-- Sortedness only reads `createdAt`, so it transfers along a pointwise
`createdAt`-preserving change of list. -/
theorem sorted_iff_map (l : List Msg) :
    l.Sorted msgLE ↔ (l.map Msg.createdAt).Pairwise (fun a b => a ≤ b) := by
  rw [List.pairwise_map]
  exact Iff.rfl

theorem cleanStore_transfer {l l' : List Msg}
    (hid : l'.map Msg.id = l.map Msg.id)
    (hfp : l'.map fp = l.map fp)
    (hca : l'.map Msg.createdAt = l.map Msg.createdAt)
    (h : CleanStore l) : CleanStore l' := by
  obtain ⟨h1, h2, h3, h4⟩ := h
  refine ⟨?_, by rw [hid]; exact h2, by rw [hfp]; exact h3, ?_⟩
  · intro m hm
    have : m.id ∈ l'.map Msg.id := List.mem_map.mpr ⟨m, hm, rfl⟩
    rw [hid] at this
    obtain ⟨m₀, hm₀, he⟩ := List.mem_map.mp this
    rw [← he]
    exact h1 m₀ hm₀
  · rw [sorted_iff_map, hca, ← sorted_iff_map]
    exact h4

/-- A store equal to its own compaction stays equal to its own compaction
after any mutation that preserves ids, fingerprints and timestamps
pointwise. -/
theorem compact_preserved {l l' : List Msg}
    (hid : l'.map Msg.id = l.map Msg.id)
    (hfp : l'.map fp = l.map fp)
    (hca : l'.map Msg.createdAt = l.map Msg.createdAt)
    (h : compactL l = l) : compactL l' = l' :=
  compact_of_clean (cleanStore_transfer hid hfp hca (h ▸ compactL_clean l))

/-- C1: Compaction is idempotent: for every list of messages `S`, applying
the compaction performed inside `saveData` (identity merge by id, then
fingerprint merge, then sort by `createdAt` ascending) twice yields the
same message list as applying it once. -/
theorem compaction_idempotent (S : List Msg) : compactL (compactL S) = compactL S :=
  compact_of_clean (compactL_clean S)

/-- C10: compaction silently discards malformed entries: every message in
the compacted output stems from a non-null entry of the input whose `id`
field is truthy; contrapositively, an entry that is `null` or has a falsy
`id` never survives compaction, so saving a snapshot containing it removes
it from the persisted store. -/
theorem malformed_entries_dropped (l : List (Option Msg)) (m : Msg)
    (h : m ∈ compact l) : some m ∈ l ∧ m.id ≠ "" :=
  mem_compact h

/-- Witness for C10: on a snapshot holding a `null` entry, a falsy-id entry
and a well-formed entry, only the well-formed entry survives, and the
theorem applies to it. -/
theorem malformed_entries_dropped_witness :
    c10good ∈ compact [none, some c10bad, some c10good] ∧
      some c10good ∈ ([none, some c10bad, some c10good] : List (Option Msg)) ∧
      c10good.id ≠ "" :=
  ⟨by decide, malformed_entries_dropped [none, some c10bad, some c10good] c10good (by decide)⟩

/-- `ivStr` only depends on the nonce bytes. -/
theorem ivStr_congr {m₁ m₂ : Msg}
    (h : m₁.cipher.map Cipher.iv = m₂.cipher.map Cipher.iv) : ivStr m₁ = ivStr m₂ := by
  rcases hc₁ : m₁.cipher with _ | c₁ <;> rcases hc₂ : m₂.cipher with _ | c₂ <;>
    rw [hc₁, hc₂] at h <;> simp_all [ivStr]

/-- `dataStr` only depends on the first 24 ciphertext bytes. -/
theorem dataStr_congr {m₁ m₂ : Msg}
    (h : m₁.cipher.map (fun c => c.data.take 24) = m₂.cipher.map (fun c => c.data.take 24)) :
    dataStr m₁ = dataStr m₂ := by
  rcases hc₁ : m₁.cipher with _ | c₁ <;> rcases hc₂ : m₂.cipher with _ | c₂ <;>
    rw [hc₁, hc₂] at h <;> simp_all [dataStr]

/-- C2 counterexample: the compaction buckets `createdAt` with
`Math.round(createdAt/200)`, not `floor(createdAt/200)`.  `c2floorA`
(createdAt 400) and `c2floorB` (createdAt 550) agree on `convId`, `from`,
`to`, nonce and ciphertext prefix and share the floor bucket
`⌊createdAt/200⌋ = 2`, yet compaction keeps both of them rather than
exactly the one with the larger `createdAt`. -/
theorem fingerprint_floor_counterexample :
    c2floorA.convId = c2floorB.convId ∧
      c2floorA.«from» = c2floorB.«from» ∧
      c2floorA.«to» = c2floorB.«to» ∧
      c2floorA.cipher = c2floorB.cipher ∧
      c2floorA.createdAt / 200 = c2floorB.createdAt / 200 ∧
      c2floorA.createdAt < c2floorB.createdAt ∧
      compactL [c2floorA, c2floorB] = [c2floorA, c2floorB] ∧
      compactL [c2floorA, c2floorB] ≠ [c2floorB] := by
  decide

/-- C2 (amended): Fingerprint collapse with `Math.round` bucketing: for
every pair of distinct-id messages with identical `(convId, from, to)`,
identical nonce bytes and identical first-24 ciphertext bytes, whose
`createdAt` values fall in the same bucket computed as
`Math.round(createdAt/200 ms)`, compaction retains exactly the one with the
larger `createdAt` (ties broken in favor of the later-encountered
entry). -/
theorem fingerprint_collapse (m₁ m₂ : Msg)
    (h₁ : m₁.id ≠ "") (h₂ : m₂.id ≠ "") (h₁₂ : m₁.id ≠ m₂.id)
    (hconv : m₁.convId = m₂.convId)
    (hfrom : m₁.«from» = m₂.«from»)
    (hto : m₁.«to» = m₂.«to»)
    (hiv : m₁.cipher.map Cipher.iv = m₂.cipher.map Cipher.iv)
    (hdata : m₁.cipher.map (fun c => c.data.take 24) = m₂.cipher.map (fun c => c.data.take 24))
    (hbucket : bucket m₁ = bucket m₂) :
    compactL [m₁, m₂] = [if m₁.createdAt ≤ m₂.createdAt then m₂ else m₁] := by
  have hfpeq : fp m₁ = fp m₂ := by
    rw [fp, fp, hconv, hfrom, hto, hbucket, ivStr_congr hiv, dataStr_congr hdata]
  have hidm : idMerge ([m₁, m₂].map some) = [m₁, m₂] := by
    apply idMerge_of_nodup
    · intro m hm
      rcases List.mem_cons.mp hm with rfl | hm
      · exact h₁
      · rcases List.mem_cons.mp hm with rfl | hm
        · exact h₂
        · cases hm
    · simp [h₁₂]
  have hstep1 : fpStep [] m₁ = [(fp m₁, m₁)] := fpStep_of_none rfl
  have hget : mapGet (fp m₂) [(fp m₁, m₁)] = some m₁ := by
    simp [mapGet, hfpeq]
  have hset : mapSet (fp m₂) m₂ [(fp m₁, m₁)] = [(fp m₂, m₂)] := by
    simp [mapSet, hfpeq]
  have hfpm : fpMerge [m₁, m₂] =
      [if m₁.createdAt ≤ m₂.createdAt then m₂ else m₁] := by
    rw [fpMerge]
    rw [show List.foldl fpStep [] [m₁, m₂] = fpStep (fpStep [] m₁) m₂ from rfl]
    rw [hstep1, fpStep_of_some hget]
    by_cases hle : m₁.createdAt ≤ m₂.createdAt
    · rw [if_pos hle, if_pos hle, hset]
      rfl
    · rw [if_neg hle, if_neg hle]
      rfl
  rw [compactL, compact, hidm, hfpm]
  exact sortByCreated_of_sorted (List.sorted_singleton _)

/-- Witness for C2 (amended): `c2roundA` (createdAt 150) and `c2roundB`
(createdAt 250) share the `Math.round` bucket 1 and compaction keeps only
the later one. -/
theorem fingerprint_collapse_witness :
    bucket c2roundA = bucket c2roundB ∧
      compactL [c2roundA, c2roundB] = [c2roundB] := by
  refine ⟨by decide, ?_⟩
  have h := fingerprint_collapse c2roundA c2roundB (by decide) (by decide) (by decide)
    (by decide) (by decide) (by decide) (by decide) (by decide) (by decide)
  simpa [c2roundA, c2roundB] using h

/- Lemmas about `updateFirst`, `applyStatus` and `markAllSeen`. -/

theorem map_updateFirst {β : Type} (p : Msg → Bool) (f : Msg → Msg) (g : Msg → β)
    (hg : ∀ x, p x = true → g (f x) = g x) :
    ∀ l : List Msg, (updateFirst p f l).map g = l.map g := by
  intro l
  induction l with
  | nil => rfl
  | cons x xs ih =>
    cases hx : p x with
    | true => simp [updateFirst, hx, hg x hx]
    | false => simp [updateFirst, hx, ih]

theorem mem_updateFirst_eq {l : List Msg} (hnd : (l.map Msg.id).Nodup)
    {mid : String} {f : Msg → Msg} {m' : Msg}
    (hmem : m' ∈ updateFirst (fun x => decide (x.id = mid)) f l)
    (hid' : m'.id = mid) :
    ∃ x ∈ l, x.id = mid ∧ m' = f x := by
  induction l with
  | nil => cases hmem
  | cons x xs ih =>
    simp only [List.map_cons, List.nodup_cons] at hnd
    by_cases hx : x.id = mid
    · rw [updateFirst, if_pos (by simp [hx])] at hmem
      rcases List.mem_cons.mp hmem with rfl | hmem'
      · exact ⟨x, List.mem_cons_self _ _, hx, rfl⟩
      · exfalso
        apply hnd.1
        have hin : m'.id ∈ xs.map Msg.id := List.mem_map.mpr ⟨m', hmem', rfl⟩
        rw [hid'] at hin
        rw [hx]
        exact hin
    · rw [updateFirst, if_neg (by simp [hx])] at hmem
      rcases List.mem_cons.mp hmem with rfl | hmem'
      · exact absurd hid' hx
      · obtain ⟨y, hy, hyid, he⟩ := ih hnd.2 hmem'
        exact ⟨y, List.mem_cons_of_mem _ hy, hyid, he⟩

theorem markAllSeen_map_eq {β : Type} (convId : String) (now : Nat) (l : List Msg)
    (g : Msg → β)
    (hg : ∀ m : Msg, g { m with status := Status.seen, seenAt := some now } = g m) :
    (markAllSeen convId now l).map g = l.map g := by
  rw [markAllSeen, List.map_map]
  apply List.map_congr_left
  intro m _
  simp only [Function.comp_apply]
  split
  · exact hg m
  · rfl

/-- C3 counterexample: `updateStatus` has no monotonicity guard: invoking
it with `'delivered'` on a message whose status is `'seen'` overwrites the
status, moving it backward in the order Sent < Delivered < Seen, instead
of being a no-op. -/
theorem status_regression_counterexample :
    c3seen.status = Status.seen ∧
      (updateStatus [c3seen] "m1" Status.delivered 200).map Msg.status =
        [Status.delivered] ∧
      Status.rank Status.delivered < Status.rank Status.seen := by
  decide

/-- C3 (amended): per-message status monotonicity is not enforced by
`updateStatus`, which assigns the requested status unconditionally; what
holds is: (a) `markAllSeenIfAtBottom` never moves any message's status
backward in the order Sent < Delivered < Seen (it only promotes unseen
peer messages to Seen), and (b) `updateStatus` sets the matched message's
status to exactly the requested status regardless of its current one — so
a `'delivered'` update on a `'seen'` message regresses it rather than
being a no-op. -/
theorem status_monotonicity_amended :
    (∀ (peerId : Option String) (nearBottom : Bool) (stored : List Msg) (now : Nat),
        compactL stored = stored →
        List.Forall₂ (fun a b => a.id = b.id ∧ a.status.rank ≤ b.status.rank)
          stored (markAllSeenIfAtBottom peerId nearBottom stored now)) ∧
    (∀ (stored : List Msg) (mid : String) (st : Status) (now : Nat) (m' : Msg),
        compactL stored = stored →
        m' ∈ updateStatus stored mid st now →
        m'.id = mid →
        m'.status = st) := by
  constructor
  · intro pid near stored now hcomp
    have hrefl : List.Forall₂ (fun a b => a.id = b.id ∧ a.status.rank ≤ b.status.rank)
        stored stored :=
      List.forall₂_same.mpr fun a _ => ⟨rfl, le_refl _⟩
    rcases pid with _ | pid
    · exact hrefl
    · cases near with
      | false => exact hrefl
      | true =>
        rw [markAllSeenIfAtBottom]
        simp only [hcomp]
        split
        · have hmarked : compactL (markAllSeen (getConversationId pid) now stored) =
              markAllSeen (getConversationId pid) now stored :=
            compact_preserved
              (markAllSeen_map_eq _ _ _ Msg.id fun m => rfl)
              (markAllSeen_map_eq _ _ _ fp fun m => rfl)
              (markAllSeen_map_eq _ _ _ Msg.createdAt fun m => rfl)
              hcomp
          rw [hmarked, markAllSeen]
          rw [List.forall₂_map_right_iff]
          apply List.forall₂_same.mpr
          intro a _
          split
          · refine ⟨rfl, ?_⟩
            cases a.status <;> simp [Status.rank]
          · exact ⟨rfl, le_refl _⟩
        · exact hrefl
  · intro stored mid st now m' hcomp hmem hid'
    rw [updateStatus] at hmem
    simp only [hcomp] at hmem
    by_cases hany : (stored.any fun x => decide (x.id = mid)) = true
    · rw [if_pos hany] at hmem
      have hupd : compactL (updateFirst (fun x => decide (x.id = mid))
          (applyStatus st now) stored) =
          updateFirst (fun x => decide (x.id = mid)) (applyStatus st now) stored :=
        compact_preserved
          (map_updateFirst (fun x => decide (x.id = mid)) (applyStatus st now)
            Msg.id (fun x _ => rfl) stored)
          (map_updateFirst (fun x => decide (x.id = mid)) (applyStatus st now)
            fp (fun x _ => rfl) stored)
          (map_updateFirst (fun x => decide (x.id = mid)) (applyStatus st now)
            Msg.createdAt (fun x _ => rfl) stored)
          hcomp
      rw [hupd] at hmem
      have hnd : (stored.map Msg.id).Nodup := (hcomp ▸ compactL_clean stored).2.1
      obtain ⟨x, _, _, he⟩ := mem_updateFirst_eq hnd hmem hid'
      rw [he]
      rfl
    · rw [if_neg hany] at hmem
      exfalso
      exact hany (List.any_eq_true.mpr ⟨m', hmem, by simp [hid']⟩)

/-- Witness for C3 (amended): on a singleton compacted store,
`markAllSeenIfAtBottom` relates the store pointwise without lowering any
rank, and `updateStatus` with `'seen'` sets the matched message's status
to `'seen'`. -/
theorem status_monotonicity_amended_witness :
    List.Forall₂ (fun a b => a.id = b.id ∧ a.status.rank ≤ b.status.rank)
        [c3seen] (markAllSeenIfAtBottom (some "u-1") true [c3seen] 300) ∧
      (applyStatus Status.seen 400 c3sent).status = Status.seen :=
  ⟨status_monotonicity_amended.1 (some "u-1") true [c3seen] 300 (by decide),
    status_monotonicity_amended.2 [c3sent] "m2" Status.seen 400
      (applyStatus Status.seen 400 c3sent) (by decide) (by decide) (by decide)⟩

/- Send path lemmas. -/

/-- Appending a message with a fresh truthy id, a fresh fingerprint and a
maximal timestamp to a compacted store is untouched by compaction. -/
theorem compact_append_fresh {l : List Msg} {m : Msg}
    (hcomp : compactL l = l)
    (hid : m.id ≠ "") (hidf : m.id ∉ l.map Msg.id)
    (hfpf : fp m ∉ l.map fp)
    (hts : ∀ x ∈ l, x.createdAt ≤ m.createdAt) :
    compactL (l ++ [m]) = l ++ [m] := by
  obtain ⟨h1, h2, h3, h4⟩ := hcomp ▸ compactL_clean l
  apply compact_of_clean
  refine ⟨?_, ?_, ?_, ?_⟩
  · intro x hx
    rcases List.mem_append.mp hx with hx | hx
    · exact h1 x hx
    · rw [List.mem_singleton.mp hx]
      exact hid
  · rw [List.map_append, List.nodup_append]
    refine ⟨h2, List.nodup_singleton _, ?_⟩
    intro a ha hb
    rw [List.map_singleton, List.mem_singleton] at hb
    rw [hb] at ha
    exact hidf ha
  · rw [List.map_append, List.nodup_append]
    refine ⟨h3, List.nodup_singleton _, ?_⟩
    intro a ha hb
    rw [List.map_singleton, List.mem_singleton] at hb
    rw [hb] at ha
    exact hfpf ha
  · show List.Pairwise msgLE (l ++ [m])
    rw [List.pairwise_append]
    refine ⟨h4, List.pairwise_singleton _ _, ?_⟩
    intro a ha b hb
    rw [List.mem_singleton] at hb
    rw [hb]
    exact hts a ha

/-- C6: Duplicate-submit suppression: starting from a compacted store with
no pending send, an accepted `sendMessage` appends exactly one freshly
encrypted message, and a second `sendMessage` with the same text for the
same conversation within 600 ms is silently dropped: the state (store
included) is unchanged, so the store holds exactly one new message, and
that message decrypts to the sent text. -/
theorem duplicate_submit_suppressed
    (pid : String) (stored : List Msg) (t : String)
    (now₁ now₂ : Nat) (id₂ : String) (iv₂ : List Nat) (id₁ : String) (iv₁ : List Nat)
    (hcomp : compactL stored = stored)
    (hid : id₁ ≠ "") (hidf : id₁ ∉ stored.map Msg.id)
    (hfpf : fp (mkSendMsg pid t now₁ id₁ iv₁) ∉ stored.map fp)
    (hts : ∀ x ∈ stored, x.createdAt ≤ now₁)
    (hwin : now₂ - now₁ < 600) :
    (sendMessage ⟨stored, none, false, some pid⟩ t now₁ id₁ iv₁).msgs =
        stored ++ [mkSendMsg pid t now₁ id₁ iv₁] ∧
      sendMessage (sendMessage ⟨stored, none, false, some pid⟩ t now₁ id₁ iv₁)
          t now₂ id₂ iv₂ =
        sendMessage ⟨stored, none, false, some pid⟩ t now₁ id₁ iv₁ ∧
      decryptMessage (getConversationId pid)
        (encryptMessage (getConversationId pid) t iv₁) = t := by
  have hmsg : compactL (compactL stored ++ [mkSendMsg pid t now₁ id₁ iv₁]) =
      stored ++ [mkSendMsg pid t now₁ id₁ iv₁] := by
    rw [hcomp]
    exact compact_append_fresh hcomp hid hidf hfpf hts
  have hs1 : sendMessage ⟨stored, none, false, some pid⟩ t now₁ id₁ iv₁ =
      ⟨stored ++ [mkSendMsg pid t now₁ id₁ iv₁],
        some ⟨getConversationId pid, t, now₁⟩, false, some pid⟩ := by
    show AppState.mk (compactL (compactL stored ++ [mkSendMsg pid t now₁ id₁ iv₁]))
        (some ⟨getConversationId pid, t, now₁⟩) false (some pid) = _
    rw [hmsg]
  refine ⟨by rw [hs1], ?_, decrypt_encrypt _ _ _⟩
  rw [hs1]
  simp [sendMessage, hwin]

/- Pagination. -/

/-- C7: Pagination bound: with a conversation open, `getVisibleMessages`
reports `total` = the number of non-tombstoned messages of that
conversation in the loaded (compacted) store, returns a slice of length
exactly `min (PAGE_SIZE*(pageIndex+1)) total`, that slice is the suffix —
the last `PAGE_SIZE*(pageIndex+1)` entries — of the ascending-sorted
non-tombstoned set, and that set is indeed ascending-sorted. -/
theorem pagination_bound (pid : String) (k : Nat) (stored : List Msg) :
    (getVisibleMessages (some pid) k stored).2 =
        ((compactL stored).filter fun m =>
          decide (m.convId = getConversationId pid ∧ m.deleted = false)).length ∧
      ((getVisibleMessages (some pid) k stored).1).length =
        min (PAGE_SIZE * (k + 1)) (getVisibleMessages (some pid) k stored).2 ∧
      (getVisibleMessages (some pid) k stored).1 =
        ((compactL stored).filter fun m =>
          decide (m.convId = getConversationId pid ∧ m.deleted = false)).drop
          (((compactL stored).filter fun m =>
            decide (m.convId = getConversationId pid ∧ m.deleted = false)).length -
            PAGE_SIZE * (k + 1)) ∧
      ((compactL stored).filter fun m =>
        decide (m.convId = getConversationId pid ∧ m.deleted = false)).Sorted msgLE := by
  refine ⟨rfl, ?_, rfl, ?_⟩
  · have htot : (getVisibleMessages (some pid) k stored).2 =
        ((compactL stored).filter fun m =>
          decide (m.convId = getConversationId pid ∧ m.deleted = false)).length := rfl
    rw [htot]
    show (List.drop _ _).length = _
    rw [List.length_drop]
    omega
  · exact ((compactL_clean stored).2.2.2).sublist (List.filter_sublist _)

/-- Witness for C6 on an empty store: "Hello" sent at t=1000 and again at
t=1300 (within the 600 ms window) leaves exactly the one message, which
decrypts back to "Hello". -/
theorem duplicate_submit_suppressed_witness :
    (sendMessage ⟨[], none, false, some "u-1"⟩ "Hello" 1000 "a"
          [1, 2, 3, 4, 5, 6, 7, 8, 9, 10, 11, 12]).msgs =
        [] ++ [mkSendMsg "u-1" "Hello" 1000 "a" [1, 2, 3, 4, 5, 6, 7, 8, 9, 10, 11, 12]] ∧
      sendMessage (sendMessage ⟨[], none, false, some "u-1"⟩ "Hello" 1000 "a"
            [1, 2, 3, 4, 5, 6, 7, 8, 9, 10, 11, 12]) "Hello" 1300 "b"
            [9, 9, 9, 9, 9, 9, 9, 9, 9, 9, 9, 9] =
        sendMessage ⟨[], none, false, some "u-1"⟩ "Hello" 1000 "a"
          [1, 2, 3, 4, 5, 6, 7, 8, 9, 10, 11, 12] ∧
      decryptMessage (getConversationId "u-1")
        (encryptMessage (getConversationId "u-1") "Hello"
          [1, 2, 3, 4, 5, 6, 7, 8, 9, 10, 11, 12]) = "Hello" :=
  duplicate_submit_suppressed "u-1" [] "Hello" 1000 1300 "b"
    [9, 9, 9, 9, 9, 9, 9, 9, 9, 9, 9, 9] "a" [1, 2, 3, 4, 5, 6, 7, 8, 9, 10, 11, 12]
    rfl (by decide) (by simp) (by simp) (by simp) (by decide)

/- Delete / undo. -/

/-- C8: the delete-then-undo round trip does restore the exact pre-delete
object, but the undo callback's guard diverges from its own comment
("Restore only if message still exists and is marked deleted"): it checks
existence only, so on a store where the message with the snapshot's id is
no longer tombstoned (for instance restored by an earlier undo and then
edited), the undo still overwrites it with the snapshot, clobbering the
edit.  All three conjuncts evaluate the code at concrete inputs. -/
theorem tombstone_undo_divergence :
    undoDelete (onDeleteMessage [c8orig] "m1").1 "m1"
        ((onDeleteMessage [c8orig] "m1").2.getD c8orig) = [c8orig] ∧
      c8edited.deleted = false ∧
      undoDelete [c8edited] "m1" c8snapshot ≠ [c8edited] := by
  decide

/- Further map lemmas, for the scheduler. -/

theorem mapGet_mapSet_self {α : Type} (k : String) (v : α) (l : List (String × α)) :
    mapGet k (mapSet k v l) = some v := by
  induction l with
  | nil => simp [mapSet, mapGet]
  | cons hd tl ih =>
    obtain ⟨k', v'⟩ := hd
    by_cases hk : k' = k
    · simp [mapSet, mapGet, hk]
    · simp [mapSet, mapGet, hk, ih]

theorem mapGet_mapSet_ne {α : Type} {k' k : String} (hk : k' ≠ k) (v : α)
    (l : List (String × α)) : mapGet k' (mapSet k v l) = mapGet k' l := by
  induction l with
  | nil => simp [mapSet, mapGet, Ne.symm hk]
  | cons hd tl ih =>
    obtain ⟨k₀, v₀⟩ := hd
    by_cases h₀ : k₀ = k
    · have h₂ : k₀ ≠ k' := by rw [h₀]; exact Ne.symm hk
      simp [mapSet, mapGet, h₀, h₂, Ne.symm hk]
    · by_cases h₁ : k₀ = k'
      · subst h₁
        simp [mapSet, mapGet, h₀]
      · simp [mapSet, mapGet, h₀, h₁, ih]

theorem mem_mapDelete {α : Type} {p : String × α} {k : String} {l : List (String × α)}
    (h : p ∈ mapDelete k l) : p ∈ l := by
  induction l with
  | nil => cases h
  | cons hd tl ih =>
    obtain ⟨k', v'⟩ := hd
    by_cases hk : k' = k
    · rw [mapDelete, if_pos hk] at h
      exact List.mem_cons_of_mem _ h
    · rw [mapDelete, if_neg hk] at h
      rcases List.mem_cons.mp h with rfl | h'
      · exact List.mem_cons_self _ _
      · exact List.mem_cons_of_mem _ (ih h')

theorem mapDelete_sublist {α : Type} (k : String) (l : List (String × α)) :
    (mapDelete k l).Sublist l := by
  induction l with
  | nil => exact List.Sublist.refl _
  | cons hd tl ih =>
    obtain ⟨k', v'⟩ := hd
    by_cases hk : k' = k
    · rw [mapDelete, if_pos hk]
      exact List.sublist_cons_self _ _
    · rw [mapDelete, if_neg hk]
      exact ih.cons₂ _

theorem nodup_keys_mapDelete {α : Type} {k : String} {l : List (String × α)}
    (h : (l.map Prod.fst).Nodup) : ((mapDelete k l).map Prod.fst).Nodup :=
  h.sublist ((mapDelete_sublist k l).map Prod.fst)

theorem mapDelete_key_ne {α : Type} {p : String × α} {k : String} {l : List (String × α)}
    (hnd : (l.map Prod.fst).Nodup) (h : p ∈ mapDelete k l) : p.1 ≠ k := by
  induction l with
  | nil => cases h
  | cons hd tl ih =>
    obtain ⟨k', v'⟩ := hd
    simp only [List.map_cons, List.nodup_cons] at hnd
    by_cases hk : k' = k
    · subst hk
      rw [mapDelete, if_pos rfl] at h
      intro he
      apply hnd.1
      rw [← he]
      exact List.mem_map.mpr ⟨p, h, rfl⟩
    · rw [mapDelete, if_neg hk] at h
      rcases List.mem_cons.mp h with rfl | h'
      · exact hk
      · exact ih hnd.2 h'

theorem mapGet_mapDelete_ne {α : Type} {k' k : String} (hk : k' ≠ k)
    (l : List (String × α)) : mapGet k' (mapDelete k l) = mapGet k' l := by
  induction l with
  | nil => rfl
  | cons hd tl ih =>
    obtain ⟨k₀, v₀⟩ := hd
    by_cases h₀ : k₀ = k
    · subst h₀
      rw [mapDelete, if_pos rfl, mapGet, if_neg (fun h => hk h.symm)]
    · by_cases h₁ : k₀ = k'
      · rw [mapDelete, if_neg h₀, mapGet, if_pos h₁, mapGet, if_pos h₁]
      · rw [mapDelete, if_neg h₀, mapGet, if_neg h₁, mapGet, if_neg h₁, ih]

theorem mapGet_mem {α : Type} {k : String} {v : α} {l : List (String × α)}
    (h : mapGet k l = some v) : (k, v) ∈ l := by
  induction l with
  | nil => cases h
  | cons hd tl ih =>
    obtain ⟨k', v'⟩ := hd
    by_cases hk : k' = k
    · rw [mapGet, if_pos hk] at h
      subst hk
      rw [Option.some.injEq] at h
      rw [h]
      exact List.mem_cons_self _ _
    · rw [mapGet, if_neg hk] at h
      exact List.mem_cons_of_mem _ (ih h)

theorem nodup_fst_eq {α β : Type} {a : α} {b c : β} {l : List (α × β)}
    (hnd : (l.map Prod.fst).Nodup) (hb : (a, b) ∈ l) (hc : (a, c) ∈ l) : b = c := by
  induction l with
  | nil => cases hb
  | cons hd tl ih =>
    simp only [List.map_cons, List.nodup_cons] at hnd
    rcases List.mem_cons.mp hb with rfl | hb'
    · rcases List.mem_cons.mp hc with he | hc'
      · exact (Prod.mk.injEq _ _ _ _ ▸ he).2.symm ▸ rfl
      · exact absurd (List.mem_map.mpr ⟨(a, c), hc', rfl⟩) hnd.1
    · rcases List.mem_cons.mp hc with rfl | hc'
      · exact absurd (List.mem_map.mpr ⟨(a, b), hb', rfl⟩) hnd.1
      · exact ih hnd.2 hb' hc'

theorem filter_length_le_one {α : Type} {l : List α} {pr : α → Bool}
    (hnd : l.Nodup) (huniq : ∀ p ∈ l, ∀ q ∈ l, pr p = true → pr q = true → p = q) :
    (l.filter pr).length ≤ 1 := by
  induction l with
  | nil => simp
  | cons x xs ih =>
    rw [List.nodup_cons] at hnd
    cases hx : pr x with
    | true =>
      rw [List.filter_cons_of_pos hx]
      have hempty : xs.filter pr = [] := by
        rw [List.filter_eq_nil_iff]
        intro y hy hpy
        have : y = x := huniq y (List.mem_cons_of_mem _ hy) x (List.mem_cons_self _ _) hpy hx
        exact hnd.1 (this ▸ hy)
      rw [hempty]
      simp
    | false =>
      rw [List.filter_cons_of_neg (by simp [hx])]
      exact ih hnd.2 fun p hp q hq hpp hqq =>
        huniq p (List.mem_cons_of_mem _ hp) q (List.mem_cons_of_mem _ hq) hpp hqq

/- Characterizations of the scheduler operations. -/

theorem simulateBotResponse_suppressed {s : SchedState} {convId userText : String}
    {now : Nat} (hsup : botSuppressed s convId userText now = true) :
    simulateBotResponse s convId userText now = s := by
  rw [simulateBotResponse, if_pos hsup]

theorem simulateBotResponse_of_some {s : SchedState} {convId userText : String}
    {now : Nat} {prev : Nat}
    (hsup : botSuppressed s convId userText now = false)
    (hget : mapGet convId s.botTimers = some prev) :
    simulateBotResponse s convId userText now =
      { botTimers := mapSet convId s.nextTid (mapDelete convId s.botTimers)
        live := (s.live.filter fun p => decide (p.1 ≠ prev)) ++ [(s.nextTid, convId)]
        nextTid := s.nextTid + 1
        lastBot := some ⟨convId, userText, now⟩ } := by
  rw [simulateBotResponse, if_neg (by simp [hsup]), hget]

theorem simulateBotResponse_of_none {s : SchedState} {convId userText : String}
    {now : Nat}
    (hsup : botSuppressed s convId userText now = false)
    (hget : mapGet convId s.botTimers = none) :
    simulateBotResponse s convId userText now =
      { botTimers := mapSet convId s.nextTid s.botTimers
        live := s.live ++ [(s.nextTid, convId)]
        nextTid := s.nextTid + 1
        lastBot := some ⟨convId, userText, now⟩ } := by
  rw [simulateBotResponse, if_neg (by simp [hsup]), hget]

theorem fireBotTimer_of_mem {s : SchedState} {tid : Nat} {convId : String}
    (h : (tid, convId) ∈ s.live) :
    fireBotTimer s tid convId =
      { s with live := s.live.filter fun p => decide (p ≠ (tid, convId))
               botTimers := mapDelete convId s.botTimers } := by
  rw [fireBotTimer, if_pos h]

theorem fireBotTimer_of_not_mem {s : SchedState} {tid : Nat} {convId : String}
    (h : (tid, convId) ∉ s.live) : fireBotTimer s tid convId = s := by
  rw [fireBotTimer, if_neg h]

/- The scheduler invariant is inductive. -/

theorem schedInv_init : SchedInv initSched := by
  refine ⟨?_, ?_, ?_, ?_, ?_⟩ <;> simp [initSched]

theorem schedInv_schedule {s : SchedState} (convId userText : String) (now : Nat)
    (h : SchedInv s) : SchedInv (simulateBotResponse s convId userText now) := by
  obtain ⟨hBK, hLG, hBL, hLT, hLN⟩ := h
  cases hsup : botSuppressed s convId userText now with
  | true =>
    rw [simulateBotResponse_suppressed hsup]
    exact ⟨hBK, hLG, hBL, hLT, hLN⟩
  | false =>
    rcases hget : mapGet convId s.botTimers with _ | prev
    · rw [simulateBotResponse_of_none hsup hget]
      have hnoconv : ∀ p ∈ s.live, p.2 ≠ convId := by
        intro p hp he
        have h1 := hLG p hp
        rw [he, hget] at h1
        cases h1
      refine ⟨nodup_keys_mapSet hBK, ?_, ?_, ?_, ?_⟩
      · intro p hp
        rcases List.mem_append.mp hp with hp | hp
        · show mapGet p.2 (mapSet convId s.nextTid s.botTimers) = some p.1
          rw [mapGet_mapSet_ne (hnoconv p hp)]
          exact hLG p hp
        · rw [List.mem_singleton.mp hp]
          exact mapGet_mapSet_self _ _ _
      · intro q hq
        rcases mem_mapSet hq with rfl | hq'
        · simp
        · exact List.mem_append_left _ (hBL q hq')
      · intro p hp
        rcases List.mem_append.mp hp with hp | hp
        · exact Nat.lt_succ_of_lt (hLT p hp)
        · rw [List.mem_singleton.mp hp]
          exact Nat.lt_succ_self _
      · rw [List.map_append, List.nodup_append]
        refine ⟨hLN, List.nodup_singleton _, ?_⟩
        intro a ha hb
        rw [List.map_singleton, List.mem_singleton] at hb
        subst hb
        obtain ⟨p, hp, hpe⟩ := List.mem_map.mp ha
        exact absurd (hpe ▸ hLT p hp) (lt_irrefl _)
    · rw [simulateBotResponse_of_some hsup hget]
      have hprevlive : (prev, convId) ∈ s.live := hBL (convId, prev) (mapGet_mem hget)
      have hconvprev : ∀ p ∈ s.live, p.2 = convId → p.1 = prev := by
        intro p hp he
        have h1 := hLG p hp
        rw [he, hget] at h1
        exact (Option.some.inj h1).symm
      have hfilt_noconv : ∀ p ∈ (s.live.filter fun p => decide (p.1 ≠ prev)),
          p.2 ≠ convId := by
        intro p hp he
        rw [List.mem_filter] at hp
        have h1 : p.1 = prev := hconvprev p hp.1 he
        rw [decide_eq_true_eq] at hp
        exact hp.2 h1
      refine ⟨nodup_keys_mapSet (nodup_keys_mapDelete hBK), ?_, ?_, ?_, ?_⟩
      · intro p hp
        rcases List.mem_append.mp hp with hp | hp
        · have hne := hfilt_noconv p hp
          rw [List.mem_filter] at hp
          show mapGet p.2 (mapSet convId s.nextTid (mapDelete convId s.botTimers)) =
            some p.1
          rw [mapGet_mapSet_ne hne, mapGet_mapDelete_ne hne]
          exact hLG p hp.1
        · rw [List.mem_singleton.mp hp]
          exact mapGet_mapSet_self _ _ _
      · intro q hq
        rcases mem_mapSet hq with rfl | hq'
        · simp
        · have hq₁ := mem_mapDelete hq'
          have hkne : q.1 ≠ convId := mapDelete_key_ne hBK hq'
          have hlv := hBL q hq₁
          have hq2 : q.2 ≠ prev := by
            intro he
            exact hkne (nodup_fst_eq hLN (he ▸ hlv) hprevlive)
          apply List.mem_append_left
          rw [List.mem_filter]
          exact ⟨hlv, by simp [hq2]⟩
      · intro p hp
        rcases List.mem_append.mp hp with hp | hp
        · rw [List.mem_filter] at hp
          exact Nat.lt_succ_of_lt (hLT p hp.1)
        · rw [List.mem_singleton.mp hp]
          exact Nat.lt_succ_self _
      · rw [List.map_append, List.nodup_append]
        refine ⟨hLN.sublist ((List.filter_sublist _).map _), List.nodup_singleton _, ?_⟩
        intro a ha hb
        rw [List.map_singleton, List.mem_singleton] at hb
        subst hb
        obtain ⟨p, hp, hpe⟩ := List.mem_map.mp ha
        rw [List.mem_filter] at hp
        exact absurd (hpe ▸ hLT p hp.1) (lt_irrefl _)

theorem schedInv_fire {s : SchedState} (tid : Nat) (convId : String)
    (h : SchedInv s) : SchedInv (fireBotTimer s tid convId) := by
  obtain ⟨hBK, hLG, hBL, hLT, hLN⟩ := h
  by_cases hmem : (tid, convId) ∈ s.live
  · rw [fireBotTimer_of_mem hmem]
    have hgettid : mapGet convId s.botTimers = some tid := hLG (tid, convId) hmem
    refine ⟨nodup_keys_mapDelete hBK, ?_, ?_, ?_, ?_⟩
    · intro p hp
      rw [List.mem_filter, decide_eq_true_eq] at hp
      have hne : p.2 ≠ convId := by
        intro he
        have h1 := hLG p hp.1
        rw [he, hgettid] at h1
        exact hp.2 (Prod.ext (Option.some.inj h1).symm he)
      show mapGet p.2 (mapDelete convId s.botTimers) = some p.1
      rw [mapGet_mapDelete_ne hne]
      exact hLG p hp.1
    · intro q hq
      have hq₁ := mem_mapDelete hq
      have hkne := mapDelete_key_ne hBK hq
      rw [List.mem_filter, decide_eq_true_eq]
      refine ⟨hBL q hq₁, ?_⟩
      intro he
      exact hkne (congrArg Prod.snd he)
    · intro p hp
      rw [List.mem_filter] at hp
      exact hLT p hp.1
    · exact hLN.sublist ((List.filter_sublist _).map _)
  · rw [fireBotTimer_of_not_mem hmem]
    exact ⟨hBK, hLG, hBL, hLT, hLN⟩

theorem schedInv_reachable {s : SchedState} (h : BotReachable s) : SchedInv s := by
  induction h with
  | init => exact schedInv_init
  | schedule s convId userText now _ ih => exact schedInv_schedule convId userText now ih
  | fire s tid convId _ ih => exact schedInv_fire tid convId ih

/-- C9: Single-flight auto-reply: in every reachable scheduler state there
is at most one outstanding (live) scheduled-reply timer per conversation
id, and a new non-suppressed scheduling call for a conversation removes
the previously outstanding timer for that conversation (it can no longer
fire) while installing the fresh one — so only the latest scheduled reply
can fire. -/
theorem single_flight_auto_reply (s : SchedState) (hreach : BotReachable s) :
    (∀ convId : String,
        (s.live.filter fun p => decide (p.2 = convId)).length ≤ 1) ∧
      (∀ (convId userText : String) (now tid : Nat),
        botSuppressed s convId userText now = false →
        (tid, convId) ∈ s.live →
        (tid, convId) ∉ (simulateBotResponse s convId userText now).live ∧
          (s.nextTid, convId) ∈ (simulateBotResponse s convId userText now).live) := by
  obtain ⟨hBK, hLG, hBL, hLT, hLN⟩ := schedInv_reachable hreach
  constructor
  · intro convId
    apply filter_length_le_one (List.Nodup.of_map _ hLN)
    intro p hp q hq hpp hqq
    rw [decide_eq_true_eq] at hpp hqq
    have h1 := hLG p hp
    have h2 := hLG q hq
    rw [hpp] at h1
    rw [hqq] at h2
    have he : p.1 = q.1 := Option.some.inj (h1.symm.trans h2)
    exact Prod.ext he (hpp.trans hqq.symm)
  · intro convId userText now tid hsup hmem
    have hget : mapGet convId s.botTimers = some tid := hLG (tid, convId) hmem
    rw [simulateBotResponse_of_some hsup hget]
    constructor
    · intro hin
      rcases List.mem_append.mp hin with hin | hin
      · rw [List.mem_filter, decide_eq_true_eq] at hin
        exact hin.2 rfl
      · rw [List.mem_singleton] at hin
        have he : tid = s.nextTid := congrArg Prod.fst hin
        exact absurd (he ▸ hLT (tid, convId) hmem) (lt_irrefl _)
    · exact List.mem_append_right _ (List.mem_singleton_self _)

/-- Witness for C9: the invariant at the initial state, and the
supersede-on-reschedule behaviour after one concrete schedule. -/
theorem single_flight_auto_reply_witness :
    ((initSched.live.filter fun p => decide (p.2 = "conv-u-1")).length ≤ 1) ∧
      ((1, "conv-u-1") ∉
          (simulateBotResponse (simulateBotResponse initSched "conv-u-1" "hi" 0)
            "conv-u-1" "hello" 100).live ∧
        ((simulateBotResponse initSched "conv-u-1" "hi" 0).nextTid, "conv-u-1") ∈
          (simulateBotResponse (simulateBotResponse initSched "conv-u-1" "hi" 0)
            "conv-u-1" "hello" 100).live) :=
  ⟨(single_flight_auto_reply initSched BotReachable.init).1 "conv-u-1",
    (single_flight_auto_reply _
        (BotReachable.schedule _ "conv-u-1" "hi" 0 BotReachable.init)).2
      "conv-u-1" "hello" 100 1 (by decide) (by decide)⟩

end Chatly
